import Mathlib

set_option maxHeartbeats 1000000
set_option maxRecDepth 100000

/-- Track record as built by getAllTrackData in src/routes/index.js.  The
external-recording-identifier (isrc) is nullable (absent until enrichment), so it
is modelled as an Option; a JS Map treats the absent value as one ordinary key. -/
structure Track where
  id : Nat
  title : List Char
  uri : String
  album_type : String
  external : Bool
  isrc : Option String
  popularity : Option Nat
  duration_ms : Nat
  artists : List String
  deriving DecidableEq, Repr

/-- Insertion-ordered map from optional recording identifiers to tracks, the
model of the JS Map used by removeDuplicateTracks and removeAlternateVersions:
an association list kept in insertion order. -/
abbrev TrackMap := List (Option String × Track)

def mapKeys (m : TrackMap) : List (Option String) := m.map (fun e => e.1)

def mapValues (m : TrackMap) : List Track := m.map (fun e => e.2)

/-- Model of JS Map.has. -/
def mapHas (m : TrackMap) (k : Option String) : Bool := m.any (fun e => e.1 == k)

/-- Model of JS Map.get. -/
def mapGet (m : TrackMap) (k : Option String) : Option Track :=
  (m.find? (fun e => e.1 == k)).map (fun e => e.2)

/-- Model of JS Map.set: update in place when the key exists, append otherwise. -/
def mapSet (m : TrackMap) (k : Option String) (v : Track) : TrackMap :=
  if mapHas m k then m.map (fun e => if e.1 == k then (k, v) else e) else m ++ [(k, v)]

/-- Model of JS Map.delete. -/
def mapDelete (m : TrackMap) (k : Option String) : TrackMap :=
  m.filter (fun e => !(e.1 == k))

/-- The replacement decision of removeDuplicateTracks (src/routes/index.js lines
228-268), factored out of the per-track loop body: true when the incoming track
replaces the previously selected track for the same key.  The three sequential
if statements of the source are mutually exclusive (album_type equals at most
one of the three literals), so they are rendered as a disjunction. -/
def dedupReplaces (track previousTrack : Track) : Bool :=
  if track.external && previousTrack.external then
    (track.album_type == "single" && !(previousTrack.album_type == "album")) ||
      track.album_type == "album"
  else if !track.external then
    (track.album_type == "single" &&
        (if previousTrack.external then
          previousTrack.album_type == "single" || previousTrack.album_type == "album" ||
            previousTrack.album_type == "compilation"
        else
          previousTrack.album_type == "single" || previousTrack.album_type == "compilation")) ||
      track.album_type == "album" ||
      (track.album_type == "compilation" && previousTrack.album_type == "compilation")
  else false

/-- One iteration of the tracks.forEach loop of removeDuplicateTracks: a
replacement is a Map.delete followed by a Map.set of the same key. -/
def dedupStep (m : TrackMap) (track : Track) : TrackMap :=
  let key := track.isrc
  if mapHas m key = false then mapSet m key track
  else
    match mapGet m key with
    | none => m
    | some previousTrack =>
      if dedupReplaces track previousTrack then mapSet (mapDelete m key) key track else m

/-- Model of removeDuplicateTracks (src/routes/index.js lines 217-273). -/
def removeDuplicateTracks (tracks : List Track) : List Track :=
  mapValues (tracks.foldl dedupStep [])

/-- Model of String.prototype.toLowerCase applied character by character. -/
def lowerCl (l : List Char) : List Char := l.map Char.toLower

/-- Model of String.prototype.indexOf for a single character: the index of the
first occurrence, or the length of the string when the character is absent. -/
def idxOfCh (c : Char) : List Char → Nat
  | [] => 0
  | a :: t => if a == c then 0 else idxOfCh c t + 1

/-- Model of String.prototype.includes: the needle occurs contiguously. -/
def containsCl (ned : List Char) : List Char → Bool
  | [] => ned.isEmpty
  | a :: t => ned.isPrefixOf (a :: t) || containsCl ned t

/-- Model of String.prototype.trim. -/
def trimCl (l : List Char) : List Char :=
  ((l.dropWhile Char.isWhitespace).reverse.dropWhile Char.isWhitespace).reverse

/-- The alternate-version keyword list of removeAlternateVersions
(src/routes/index.js lines 282-310). -/
def keywords : List (List Char) :=
  ["version".toList, "live".toList, "remix".toList, "edit".toList, "acoustic".toList,
   "stripped".toList, "session".toList, "sessions".toList, "demo".toList, "acapella".toList,
   "a cappella".toList, "memo".toList, "track by track".toList, "mix".toList,
   "recorded at".toList, "instrumental".toList, "orchestral".toList, "spotify singles".toList,
   "commentary".toList, "extended".toList, "sped up".toList, "slowed".toList,
   "voicenote".toList, "club".toList, "dub".toList, "radio".toList, "fix".toList]

/-- The exception list of removeAlternateVersions (src/routes/index.js line 312). -/
def exceptions : List (List Char) := ["taylor".toList]

/-- The keep decision of removeAlternateVersions (src/routes/index.js lines
279-348), factored out of the per-track loop body: true when the track is set
into the output map, false when it is logged as a removed alternate version. -/
def keepsTrack (tracks : List Track) (track : Track) : Bool :=
  if track.title.contains '-' || track.title.contains '(' then
    let title := lowerCl track.title
    let separatorIndex :=
      if title.contains '-' && title.contains '(' then
        min (idxOfCh '-' title) (idxOfCh '(' title)
      else if title.contains '-' then idxOfCh '-' title
      else idxOfCh '(' title
    let titleBeforeSeparator := trimCl (title.take separatorIndex)
    let titleAfterSeparator := trimCl (title.drop (separatorIndex + 1))
    let hasKeyword := keywords.any (fun keyword => containsCl keyword titleAfterSeparator)
    let hasException := exceptions.any (fun ex => containsCl ex titleAfterSeparator)
    if hasKeyword && !hasException then
      (tracks.find? (fun other => lowerCl other.title == titleBeforeSeparator)).isNone
    else true
  else true

/-- One iteration of the tracks.forEach loop of removeAlternateVersions: kept
tracks are set into the output map under their isrc, dropped tracks are not. -/
def avStep (tracks : List Track) (m : TrackMap) (track : Track) : TrackMap :=
  if keepsTrack tracks track then mapSet m track.isrc track else m

/-- Model of removeAlternateVersions (src/routes/index.js lines 275-352). -/
def removeAlternateVersions (tracks : List Track) : List Track :=
  mapValues (tracks.foldl (avStep tracks) [])

/-- The earliest delimiter position used by the alternate-version filter, stated
as a plain minimum of the two first-occurrence indices (the spec reading). -/
def sepIndexOf (t : Track) : Nat :=
  min (idxOfCh '-' (lowerCl t.title)) (idxOfCh '(' (lowerCl t.title))

/-- The base part of a title: everything before the earliest delimiter,
lowercased and trimmed. -/
def baseOf (t : Track) : List Char := trimCl ((lowerCl t.title).take (sepIndexOf t))

/-- The suffix part of a title: everything after the earliest delimiter,
lowercased and trimmed. -/
def suffixOf (t : Track) : List Char := trimCl ((lowerCl t.title).drop (sepIndexOf t + 1))

/-- A release as returned by the paginated fetcher; only its identity matters
for the fetching claims. -/
structure Album where
  id : Nat
  deriving DecidableEq, Repr

/-- Model of the while-true page loop inside fetchAllAlbums (src/routes/index.js
lines 117-137): request the page at the current offset, stop on an empty page,
otherwise append the items and advance the offset by the fixed limit 49.  The
fuel argument bounds the number of iterations; none means the fuel ran out
before an empty page was seen. -/
def fetchLoopFuel (page : Nat → List Album) : Nat → Nat → Option (List Album)
  | 0, _ => none
  | fuel + 1, offset =>
    let items := page offset
    if items = [] then some []
    else
      match fetchLoopFuel page fuel (offset + 49) with
      | none => none
      | some rest => some (items ++ rest)

/-- Model of fetchAllAlbums (src/routes/index.js lines 112-148): the four
release categories are fetched sequentially, each starting again at offset 0,
and all pages are appended into one list. -/
def fetchAllAlbums (api : String → Nat → List Album) (fuel : Nat) : Option (List Album) :=
  match fetchLoopFuel (api "album") fuel 0 with
  | none => none
  | some a =>
    match fetchLoopFuel (api "single") fuel 0 with
    | none => none
    | some s =>
      match fetchLoopFuel (api "compilation") fuel 0 with
      | none => none
      | some c =>
        match fetchLoopFuel (api "appears_on") fuel 0 with
        | none => none
        | some g => some (a ++ s ++ c ++ g)

/-- Concatenation of the first n pages of one category, page i being requested
at offset 49 * (j + i); the expected value of a terminating page loop. -/
def collectPages (page : Nat → List Album) : Nat → Nat → List Album
  | _, 0 => []
  | j, n + 1 => page (49 * j) ++ collectPages page (j + 1) n

/-- The chunking loop of the create-playlist handler (src/routes/index.js lines
86-96): for i from 0 in steps of 100, slice(i, i + 100).  Rendered with a fuel
argument equal to the list length, which bounds the iteration count. -/
def chunksGo : Nat → List String → List (List String)
  | 0, _ => []
  | _ + 1, [] => []
  | fuel + 1, u :: rest => ((u :: rest).take 100) :: chunksGo fuel ((u :: rest).drop 100)

/-- The sequence of chunks passed to addTracksToPlaylist, one per insertion call. -/
def chunkTrackUris (trackUris : List String) : List (List String) :=
  chunksGo trackUris.length trackUris

/-- Shorthand for building concrete tracks in witnesses and counterexamples. -/
def mkTrack (id : Nat) (title : String) (atype : String) (ext : Bool)
    (isrc : Option String) : Track :=
  { id := id, title := title.toList, uri := "", album_type := atype, external := ext,
    isrc := isrc, popularity := none, duration_ms := 0, artists := [] }

def tNoIsrcA : Track := mkTrack 0 "aa" "single" false none

def tNoIsrcB : Track := mkTrack 1 "bb" "single" false none

def tExtAlbum : Track := mkTrack 2 "cc" "album" true (some "x")

def tIntComp : Track := mkTrack 3 "cc" "compilation" false (some "x")

def tIntSingle : Track := mkTrack 4 "cc" "single" false (some "x")

def tA1 : Track := mkTrack 5 "aa" "single" false (some "a")

def tB1 : Track := mkTrack 6 "bb" "single" false (some "b")

def tA2 : Track := mkTrack 7 "aa" "album" false (some "a")

def songAcoustic : Track := mkTrack 8 "Song (Acoustic)" "album" false (some "s1")

def songPlain : Track := mkTrack 9 "Song" "album" false (some "s2")

def apiW : String → Nat → List Album :=
  fun c o => if c == "album" && o == 0 then [({ id := 0 } : Album)] else []

/-- Key membership characterises mapHas. -/
theorem mapHas_true_iff (m : TrackMap) (k : Option String) :
    mapHas m k = true ↔ k ∈ mapKeys m := by
  simp [mapHas, mapKeys, List.any_eq_true]

/-- Key absence characterises mapHas being false. -/
theorem mapHas_false_iff (m : TrackMap) (k : Option String) :
    mapHas m k = false ↔ k ∉ mapKeys m := by
  rw [← mapHas_true_iff]
  cases h : mapHas m k <;> simp

/-- A present key has a value. -/
theorem mapGet_of_has (k : Option String) :
    ∀ m : TrackMap, mapHas m k = true → ∃ v, mapGet m k = some v
  | [], h => by simp [mapHas] at h
  | e :: t, h => by
    by_cases he : (e.1 == k) = true
    · refine ⟨e.2, ?_⟩
      unfold mapGet
      rw [@List.find?_cons_of_pos _ (fun x => x.1 == k) e t he]
      rfl
    · have hb : (e.1 == k) = false := by simpa using he
      have h' : mapHas t k = true := by simpa [mapHas, List.any_cons, hb] using h
      obtain ⟨v, hv⟩ := mapGet_of_has k t h'
      refine ⟨v, ?_⟩
      unfold mapGet at hv ⊢
      rw [@List.find?_cons_of_neg _ (fun x => x.1 == k) e t he]
      exact hv

/-- Keys of an appended map. -/
theorem mapKeys_append (m1 m2 : TrackMap) : mapKeys (m1 ++ m2) = mapKeys m1 ++ mapKeys m2 := by
  simp [mapKeys]

/-- Keys of a deletion are the filtered keys. -/
theorem mapKeys_delete (m : TrackMap) (k : Option String) :
    mapKeys (mapDelete m k) = (mapKeys m).filter (fun x => !(x == k)) := by
  simp [mapKeys, mapDelete, List.filter_map]
  rfl

/-- Deleting a key removes it. -/
theorem mapHas_delete_self (k : Option String) (m : TrackMap) :
    mapHas (mapDelete m k) k = false := by
  rw [mapHas_false_iff, mapKeys_delete]
  intro hmem
  have := (List.mem_filter.mp hmem).2
  simp at this

/-- Setting an absent key appends the pair. -/
theorem mapSet_of_not_has (m : TrackMap) (k : Option String) (v : Track)
    (h : mapHas m k = false) : mapSet m k v = m ++ [(k, v)] := by
  simp [mapSet, h]

/-- Members of a map after a set come from the map or are the new pair. -/
theorem mem_mapSet (m : TrackMap) (k : Option String) (v : Track) (e : Option String × Track)
    (he : e ∈ mapSet m k v) : e ∈ m ∨ e = (k, v) := by
  by_cases h : mapHas m k = true
  · unfold mapSet at he
    rw [if_pos h] at he
    obtain ⟨a, ha, hae⟩ := List.mem_map.mp he
    by_cases hk : (a.1 == k) = true
    · right; rw [if_pos hk] at hae; exact hae.symm
    · left; rw [if_neg hk] at hae; exact hae ▸ ha
  · have hf : mapHas m k = false := by simpa using h
    rw [mapSet_of_not_has m k v hf] at he
    rcases List.mem_append.mp he with h1 | h1
    · exact Or.inl h1
    · exact Or.inr (by simpa using h1)

/-- Setting a present key leaves the key list unchanged. -/
theorem mapKeys_set_of_has (m : TrackMap) (k : Option String) (v : Track)
    (h : mapHas m k = true) : mapKeys (mapSet m k v) = mapKeys m := by
  simp only [mapSet, h, if_true, mapKeys, List.map_map]
  apply List.map_congr_left
  intro e _
  by_cases hk : (e.1 == k) = true
  · simp only [Function.comp_apply, if_pos hk]
    exact (beq_iff_eq.mp hk).symm
  · simp only [Function.comp_apply, if_neg hk]

/-- Setting an absent key appends it to the key list. -/
theorem mapKeys_set_of_not_has (m : TrackMap) (k : Option String) (v : Track)
    (h : mapHas m k = false) : mapKeys (mapSet m k v) = mapKeys m ++ [k] := by
  rw [mapSet_of_not_has m k v h, mapKeys_append]
  rfl

/-- The three possible outcomes of one duplicate-resolution step. -/
theorem dedupStep_eq (m : TrackMap) (t : Track) :
    (mapHas m t.isrc = false ∧ dedupStep m t = m ++ [(t.isrc, t)]) ∨
      (mapHas m t.isrc = true ∧
        (dedupStep m t = mapDelete m t.isrc ++ [(t.isrc, t)] ∨ dedupStep m t = m)) := by
  by_cases h : mapHas m t.isrc = false
  · left
    refine ⟨h, ?_⟩
    simp only [dedupStep, h, if_true]
    exact mapSet_of_not_has m t.isrc t h
  · right
    have h' : mapHas m t.isrc = true := by simpa using h
    refine ⟨h', ?_⟩
    obtain ⟨p, hp⟩ := mapGet_of_has t.isrc m h'
    by_cases hr : dedupReplaces t p = true
    · left
      have hd : mapHas (mapDelete m t.isrc) t.isrc = false := mapHas_delete_self t.isrc m
      simp only [dedupStep, h', hp, hr, if_true, Bool.true_eq_false, if_false]
      exact mapSet_of_not_has _ t.isrc t hd
    · right
      have hrf : dedupReplaces t p = false := by simpa using hr
      simp [dedupStep, h', hp, hrf]

/-- The duplicate-resolution fold preserves key uniqueness and key-value
agreement, and its key set is the accumulator's key set together with the
identifiers of the processed tracks. -/
theorem dedup_fold_inv (l : List Track) :
    ∀ m : TrackMap, (mapKeys m).Nodup → (∀ e ∈ m, e.1 = e.2.isrc) →
      (mapKeys (l.foldl dedupStep m)).Nodup ∧
        (∀ e ∈ l.foldl dedupStep m, e.1 = e.2.isrc) ∧
        (∀ k, k ∈ mapKeys (l.foldl dedupStep m) ↔ k ∈ mapKeys m ∨ ∃ t ∈ l, t.isrc = k) := by
  induction l with
  | nil =>
    intro m h1 h2
    exact ⟨h1, h2, fun k => by simp⟩
  | cons t rest ih =>
    intro m h1 h2
    have h1' : (mapKeys (dedupStep m t)).Nodup := by
      rcases dedupStep_eq m t with ⟨hf, heq⟩ | ⟨hh, heq | heq⟩
      · rw [heq, mapKeys_append]
        have hnot : t.isrc ∉ mapKeys m := (mapHas_false_iff m t.isrc).mp hf
        refine List.nodup_append.mpr ⟨h1, by simp [mapKeys], ?_⟩
        intro a ha hb
        have hab : a = t.isrc := by simpa [mapKeys] using hb
        exact hnot (hab ▸ ha)
      · rw [heq, mapKeys_append, mapKeys_delete]
        refine List.nodup_append.mpr ⟨h1.filter _, by simp [mapKeys], ?_⟩
        intro a ha hb
        have hab : a = t.isrc := by simpa [mapKeys] using hb
        have hpa := (List.mem_filter.mp ha).2
        rw [hab] at hpa
        simp at hpa
      · rw [heq]; exact h1
    have h2' : ∀ e ∈ dedupStep m t, e.1 = e.2.isrc := by
      rcases dedupStep_eq m t with ⟨hf, heq⟩ | ⟨hh, heq | heq⟩
      · rw [heq]
        intro e he
        rcases List.mem_append.mp he with h | h
        · exact h2 e h
        · have he2 : e = (t.isrc, t) := by simpa using h
          rw [he2]
      · rw [heq]
        intro e he
        rcases List.mem_append.mp he with h | h
        · exact h2 e (List.mem_of_mem_filter h)
        · have he2 : e = (t.isrc, t) := by simpa using h
          rw [he2]
      · rw [heq]; exact h2
    have h3' : ∀ k, k ∈ mapKeys (dedupStep m t) ↔ k ∈ mapKeys m ∨ t.isrc = k := by
      intro k
      rcases dedupStep_eq m t with ⟨hf, heq⟩ | ⟨hh, heq | heq⟩
      · rw [heq, mapKeys_append]
        simp [mapKeys, eq_comm]
      · rw [heq, mapKeys_append, mapKeys_delete]
        constructor
        · intro h
          rcases List.mem_append.mp h with h | h
          · exact Or.inl (List.mem_of_mem_filter h)
          · right
            symm
            simpa [mapKeys] using h
        · intro h
          by_cases hk : k = t.isrc
          · apply List.mem_append.mpr
            right
            simp [mapKeys, hk]
          · rcases h with h | h
            · exact List.mem_append.mpr (Or.inl (List.mem_filter.mpr ⟨h, by simp [hk]⟩))
            · exact absurd h.symm hk
      · rw [heq]
        have hmem : t.isrc ∈ mapKeys m := (mapHas_true_iff m t.isrc).mp hh
        constructor
        · exact Or.inl
        · rintro (h | h)
          · exact h
          · exact h ▸ hmem
    rw [List.foldl_cons]
    obtain ⟨H1, H2, H3⟩ := ih (dedupStep m t) h1' h2'
    refine ⟨H1, H2, fun k => ?_⟩
    rw [H3 k]
    constructor
    · rintro (h | h)
      · rcases (h3' k).mp h with h | h
        · exact Or.inl h
        · exact Or.inr ⟨t, by simp, h⟩
      · obtain ⟨u, hu, hk⟩ := h
        exact Or.inr ⟨u, by simp [hu], hk⟩
    · rintro (h | ⟨u, hu, hk⟩)
      · exact Or.inl ((h3' k).mpr (Or.inl h))
      · rcases List.mem_cons.mp hu with rfl | hu2
        · exact Or.inl ((h3' k).mpr (Or.inr hk))
        · exact Or.inr ⟨u, hu2, hk⟩

/-- Counting values by identifier equals counting keys, when keys agree with
the values' identifiers. -/
theorem countP_values_key (k : Option String) :
    ∀ m : TrackMap, (∀ e ∈ m, e.1 = e.2.isrc) →
      (mapValues m).countP (fun t => t.isrc == k) = (mapKeys m).countP (fun x => x == k)
  | [], _ => rfl
  | e :: t, h => by
    have he : e.1 = e.2.isrc := h e (by simp)
    have ih := countP_values_key k t (fun x hx => h x (by simp [hx]))
    show List.countP _ (e.2 :: mapValues t) = List.countP _ (e.1 :: mapKeys t)
    rw [List.countP_cons, List.countP_cons, ih, he]

/-- In a duplicate-free list, each element is counted zero or one times. -/
theorem countP_nodup_key (k : Option String) :
    ∀ ks : List (Option String), ks.Nodup →
      ks.countP (fun x => x == k) = if k ∈ ks then 1 else 0
  | [], _ => by simp
  | x :: t, h => by
    obtain ⟨hx, ht⟩ := List.nodup_cons.mp h
    have ih := countP_nodup_key k t ht
    by_cases hxk : x = k
    · subst hxk
      rw [List.countP_cons, ih, if_neg hx]
      simp
    · rw [List.countP_cons, ih]
      have hb : (x == k) = false := by simpa using hxk
      simp [hb, List.mem_cons, Ne.symm hxk]

/-- The output of the duplicate resolver contains a key exactly once when some
input track carries it, and zero times otherwise. -/
theorem dedup_count_key (tracks : List Track) (k : Option String) :
    (removeDuplicateTracks tracks).countP (fun t => t.isrc == k) =
      if tracks.any (fun t => t.isrc == k) then 1 else 0 := by
  obtain ⟨h1, h2, h3⟩ := dedup_fold_inv tracks [] (by simp [mapKeys]) (by simp)
  unfold removeDuplicateTracks
  rw [countP_values_key k _ h2, countP_nodup_key k _ h1]
  refine if_congr ?_ rfl rfl
  rw [h3 k]
  simp [mapKeys, List.any_eq_true]

/-- Values of an appended map. -/
theorem mapValues_append (m1 m2 : TrackMap) :
    mapValues (m1 ++ m2) = mapValues m1 ++ mapValues m2 := by
  simp [mapValues]

/-- Deleting only removes values. -/
theorem values_delete_sublist (m : TrackMap) (k : Option String) :
    (mapValues (mapDelete m k)).Sublist (mapValues m) :=
  List.Sublist.map _ (List.filter_sublist m)

/-- The values of the duplicate-resolution fold form a subsequence of the
already-emitted values followed by the processed input. -/
theorem dedup_fold_sublist (l : List Track) :
    ∀ (m : TrackMap) (acc : List Track), (mapValues m).Sublist acc →
      (mapValues (l.foldl dedupStep m)).Sublist (acc ++ l) := by
  induction l with
  | nil => intro m acc h; simpa using h
  | cons t rest ih =>
    intro m acc h
    have hstep : (mapValues (dedupStep m t)).Sublist (acc ++ [t]) := by
      rcases dedupStep_eq m t with ⟨_, heq⟩ | ⟨_, heq | heq⟩
      · rw [heq, mapValues_append]
        exact h.append (List.Sublist.refl _)
      · rw [heq, mapValues_append]
        exact ((values_delete_sublist m t.isrc).trans h).append (List.Sublist.refl _)
      · rw [heq]
        exact h.trans (List.sublist_append_left acc [t])
    rw [List.foldl_cons]
    have hr := ih (dedupStep m t) (acc ++ [t]) hstep
    rwa [List.append_assoc, List.singleton_append] at hr

/-- Boolean containment agrees with list membership for characters. -/
theorem contains_iff_mem_ch (l : List Char) (c : Char) : l.contains c = true ↔ c ∈ l := by
  simp [List.contains_eq_any_beq, List.any_eq_true]

/-- The first-occurrence index never exceeds the length. -/
theorem idxOfCh_le_length (c : Char) : ∀ l : List Char, idxOfCh c l ≤ l.length
  | [] => by simp [idxOfCh]
  | a :: t => by
    by_cases h : (a == c) = true
    · simp [idxOfCh, h]
    · have hb : (a == c) = false := by simpa using h
      have ih := idxOfCh_le_length c t
      simp [idxOfCh, hb]
      omega

/-- A present character occurs strictly before the end. -/
theorem idxOfCh_lt_length (c : Char) : ∀ l : List Char, c ∈ l → idxOfCh c l < l.length
  | [], hm => by simp at hm
  | a :: t, hm => by
    by_cases h : (a == c) = true
    · simp [idxOfCh, h]
    · have hb : (a == c) = false := by simpa using h
      have hct : c ∈ t := by
        rcases List.mem_cons.mp hm with rfl | h2
        · simp at hb
        · exact h2
      have ih := idxOfCh_lt_length c t hct
      simp [idxOfCh, hb]
      omega

/-- An absent character's first-occurrence index is the length. -/
theorem idxOfCh_of_not_mem (c : Char) : ∀ l : List Char, c ∉ l → idxOfCh c l = l.length
  | [], _ => rfl
  | a :: t, hm => by
    have hne : a ≠ c := by
      intro h
      exact hm (h ▸ List.mem_cons_self a t)
    have ha : (a == c) = false := by simpa using hne
    have ht : c ∉ t := fun h => hm (List.mem_cons_of_mem a h)
    simp [idxOfCh, ha, idxOfCh_of_not_mem c t ht]

/-- The branching separator computation of the source equals the plain minimum
of the two first-occurrence indices, in all four presence cases. -/
theorem sepBranch_eq_min (title : List Char) :
    (if title.contains '-' && title.contains '(' then
        min (idxOfCh '-' title) (idxOfCh '(' title)
      else if title.contains '-' then idxOfCh '-' title
      else idxOfCh '(' title) =
      min (idxOfCh '-' title) (idxOfCh '(' title) := by
  by_cases h1 : title.contains '-' = true
  · by_cases h2 : title.contains '(' = true
    · rw [h1, h2]
      rfl
    · have h2f : title.contains '(' = false := by simpa using h2
      have hm : '(' ∉ title := by
        intro hmem
        rw [(contains_iff_mem_ch title '(').mpr hmem] at h2f
        exact Bool.true_eq_false.mp h2f
      have hlt : idxOfCh '-' title < title.length :=
        idxOfCh_lt_length _ _ ((contains_iff_mem_ch title '-').mp h1)
      rw [h1, h2f, idxOfCh_of_not_mem _ _ hm]
      show idxOfCh '-' title = min (idxOfCh '-' title) title.length
      omega
  · have h1f : title.contains '-' = false := by simpa using h1
    have hm1 : '-' ∉ title := by
      intro hmem
      rw [(contains_iff_mem_ch title '-').mpr hmem] at h1f
      exact Bool.true_eq_false.mp h1f
    by_cases h2 : title.contains '(' = true
    · have hlt : idxOfCh '(' title < title.length :=
        idxOfCh_lt_length _ _ ((contains_iff_mem_ch title '(').mp h2)
      rw [h1f, h2, idxOfCh_of_not_mem _ _ hm1]
      show idxOfCh '(' title = min title.length (idxOfCh '(' title)
      omega
    · have h2f : title.contains '(' = false := by simpa using h2
      have hm2 : '(' ∉ title := by
        intro hmem
        rw [(contains_iff_mem_ch title '(').mpr hmem] at h2f
        exact Bool.true_eq_false.mp h2f
      rw [h1f, h2f, idxOfCh_of_not_mem _ _ hm1, idxOfCh_of_not_mem _ _ hm2]
      show title.length = min title.length title.length
      omega

/-- Boolean shape of the keep decision, abstracted over its components. -/
theorem keep_shape (c K E : Bool) (fnd : Option Track) :
    (if c = true then (if (K && !E) = true then fnd.isNone else true) else true) = false ↔
      (c = true ∧ (K = true ∧ E = false) ∧ fnd.isSome = true) := by
  cases c <;> cases K <;> cases E <;> cases fnd <;> simp

/-- Characterisation of the drop decision of the alternate-version filter: a
track is dropped exactly when its title has a delimiter, the suffix after the
earliest delimiter contains a keyword and no exception, and some track of the
candidate pool matches the base part case-insensitively. -/
theorem keep_false_char (tracks : List Track) (t : Track) :
    keepsTrack tracks t = false ↔
      ((t.title.contains '-' = true ∨ t.title.contains '(' = true) ∧
        (∃ kw ∈ keywords, containsCl kw (suffixOf t) = true) ∧
        ¬(∃ ex ∈ exceptions, containsCl ex (suffixOf t) = true) ∧
        ∃ u ∈ tracks, lowerCl u.title = baseOf t) := by
  simp only [keepsTrack, suffixOf, baseOf, sepIndexOf]
  rw [sepBranch_eq_min (lowerCl t.title), keep_shape]
  simp only [Bool.or_eq_true, List.any_eq_true, List.find?_isSome, beq_iff_eq]
  constructor
  · rintro ⟨h1, ⟨h2, h3⟩, h4⟩
    refine ⟨h1, h2, ?_, h4⟩
    rintro ⟨x, hx1, hx2⟩
    rw [List.any_eq_true.mpr ⟨x, hx1, hx2⟩] at h3
    exact Bool.true_eq_false.mp h3
  · rintro ⟨h1, h2, h3, h4⟩
    refine ⟨h1, ⟨h2, ?_⟩, h4⟩
    cases hE : exceptions.any fun ex => containsCl ex (trimCl ((lowerCl t.title).drop
        (min (idxOfCh '-' (lowerCl t.title)) (idxOfCh '(' (lowerCl t.title)) + 1)))
    · rfl
    · obtain ⟨x, hx1, hx2⟩ := List.any_eq_true.mp hE
      exact absurd ⟨x, hx1, hx2⟩ h3

/-- Shrinking the candidate pool can only keep more tracks: a track kept
against a pool is kept against any subset of that pool. -/
theorem keepsTrack_mono (big small : List Track) (hsub : ∀ u ∈ small, u ∈ big) (t : Track)
    (h : keepsTrack big t = true) : keepsTrack small t = true := by
  cases hs : keepsTrack small t
  · exfalso
    obtain ⟨h1, h2, h3, u, hu, hub⟩ := (keep_false_char small t).mp hs
    have hbig : keepsTrack big t = false :=
      (keep_false_char big t).mpr ⟨h1, h2, h3, u, hsub u hu, hub⟩
    rw [hbig] at h
    exact Bool.false_ne_true h
  · rfl

/-- Members after one filter step come from the accumulator or are the kept
incoming track keyed by its identifier. -/
theorem mem_avStep (pool : List Track) (m : TrackMap) (t : Track) (e : Option String × Track)
    (he : e ∈ avStep pool m t) : e ∈ m ∨ (e = (t.isrc, t) ∧ keepsTrack pool t = true) := by
  by_cases hk : keepsTrack pool t = true
  · unfold avStep at he
    rw [if_pos hk] at he
    rcases mem_mapSet m t.isrc t e he with h | h
    · exact Or.inl h
    · exact Or.inr ⟨h, hk⟩
  · unfold avStep at he
    rw [if_neg hk] at he
    exact Or.inl he

/-- Key membership after one filter step. -/
theorem mapKeys_avStep_mem (pool : List Track) (m : TrackMap) (t : Track) (k : Option String) :
    k ∈ mapKeys (avStep pool m t) ↔
      k ∈ mapKeys m ∨ (keepsTrack pool t = true ∧ k = t.isrc) := by
  by_cases hk : keepsTrack pool t = true
  · unfold avStep
    rw [if_pos hk]
    by_cases hh : mapHas m t.isrc = true
    · rw [mapKeys_set_of_has m t.isrc t hh]
      constructor
      · exact Or.inl
      · rintro (h | ⟨_, rfl⟩)
        · exact h
        · exact (mapHas_true_iff m t.isrc).mp hh
    · have hf : mapHas m t.isrc = false := by simpa using hh
      rw [mapKeys_set_of_not_has m t.isrc t hf]
      simp [hk]
  · have hkf : keepsTrack pool t = false := by simpa using hk
    unfold avStep
    rw [if_neg hk]
    simp [hkf]

/-- One filter step preserves key uniqueness. -/
theorem mapKeys_avStep_nodup (pool : List Track) (m : TrackMap) (t : Track)
    (h : (mapKeys m).Nodup) : (mapKeys (avStep pool m t)).Nodup := by
  by_cases hk : keepsTrack pool t = true
  · unfold avStep
    rw [if_pos hk]
    by_cases hh : mapHas m t.isrc = true
    · rw [mapKeys_set_of_has m t.isrc t hh]
      exact h
    · have hf : mapHas m t.isrc = false := by simpa using hh
      rw [mapKeys_set_of_not_has m t.isrc t hf]
      refine List.nodup_append.mpr ⟨h, by simp, ?_⟩
      intro a ha hb
      have hab : a = t.isrc := by simpa using hb
      exact (mapHas_false_iff m t.isrc).mp hf (hab ▸ ha)
  · unfold avStep
    rw [if_neg hk]
    exact h

/-- Invariants of the alternate-version fold: unique keys, key-value agreement,
values sourced from kept input tracks, and the key-set characterisation. -/
theorem av_fold_inv (pool : List Track) (l : List Track) :
    ∀ m : TrackMap, (mapKeys m).Nodup → (∀ e ∈ m, e.1 = e.2.isrc) →
      (mapKeys (l.foldl (avStep pool) m)).Nodup ∧
        (∀ e ∈ l.foldl (avStep pool) m, e.1 = e.2.isrc) ∧
        (∀ e ∈ l.foldl (avStep pool) m, e ∈ m ∨ (e.2 ∈ l ∧ keepsTrack pool e.2 = true)) ∧
        (∀ k, k ∈ mapKeys (l.foldl (avStep pool) m) ↔
          k ∈ mapKeys m ∨ ∃ t ∈ l, keepsTrack pool t = true ∧ t.isrc = k) := by
  induction l with
  | nil =>
    intro m h1 h2
    exact ⟨h1, h2, fun e he => Or.inl he, fun k => by simp⟩
  | cons t rest ih =>
    intro m h1 h2
    have h1' := mapKeys_avStep_nodup pool m t h1
    have h2' : ∀ e ∈ avStep pool m t, e.1 = e.2.isrc := by
      intro e he
      rcases mem_avStep pool m t e he with h | ⟨rfl, _⟩
      · exact h2 e h
      · rfl
    rw [List.foldl_cons]
    obtain ⟨H1, H2, H3, H4⟩ := ih (avStep pool m t) h1' h2'
    refine ⟨H1, H2, ?_, ?_⟩
    · intro e he
      rcases H3 e he with h | ⟨hmem, hk⟩
      · rcases mem_avStep pool m t e h with h | ⟨rfl, hk⟩
        · exact Or.inl h
        · exact Or.inr ⟨by simp, hk⟩
      · exact Or.inr ⟨List.mem_cons_of_mem t hmem, hk⟩
    · intro k
      rw [H4 k, mapKeys_avStep_mem pool m t k]
      constructor
      · rintro ((h | ⟨hk, rfl⟩) | ⟨u, hu, hku, hik⟩)
        · exact Or.inl h
        · exact Or.inr ⟨t, by simp, hk, rfl⟩
        · exact Or.inr ⟨u, List.mem_cons_of_mem t hu, hku, hik⟩
      · rintro (h | ⟨u, hu, hku, hik⟩)
        · exact Or.inl (Or.inl h)
        · rcases List.mem_cons.mp hu with rfl | hu2
          · exact Or.inl (Or.inr ⟨hku, hik.symm⟩)
          · exact Or.inr ⟨u, hu2, hku, hik⟩

/-- When every track is kept and identifiers are pairwise distinct, the filter
fold just appends the input pairs in order. -/
theorem av_fold_pass (pool : List Track) (l : List Track) :
    ∀ m : TrackMap, (∀ t ∈ l, keepsTrack pool t = true) → (l.map Track.isrc).Nodup →
      (∀ t ∈ l, t.isrc ∉ mapKeys m) →
      l.foldl (avStep pool) m = m ++ l.map (fun t => (t.isrc, t)) := by
  induction l with
  | nil => intro m _ _ _; simp
  | cons t rest ih =>
    intro m hkeep hnd hdisj
    have hk : keepsTrack pool t = true := hkeep t (by simp)
    have hno : mapHas m t.isrc = false :=
      (mapHas_false_iff m t.isrc).mpr (hdisj t (by simp))
    have hset : avStep pool m t = m ++ [(t.isrc, t)] := by
      unfold avStep
      rw [if_pos hk]
      exact mapSet_of_not_has m t.isrc t hno
    obtain ⟨hni, hnd'⟩ := List.nodup_cons.mp (by simpa using hnd :
      (t.isrc :: rest.map Track.isrc).Nodup)
    have hdisj' : ∀ u ∈ rest, u.isrc ∉ mapKeys (m ++ [(t.isrc, t)]) := by
      intro u hu hmem
      rw [mapKeys_append] at hmem
      rcases List.mem_append.mp hmem with h | h
      · exact hdisj u (List.mem_cons_of_mem t hu) h
      · have hut : u.isrc = t.isrc := by simpa [mapKeys] using h
        exact hni (hut ▸ List.mem_map_of_mem Track.isrc hu)
    rw [List.foldl_cons, hset,
      ih (m ++ [(t.isrc, t)]) (fun u hu => hkeep u (List.mem_cons_of_mem t hu)) hnd' hdisj']
    simp

/-- The identifiers of the values are exactly the keys, under key-value
agreement. -/
theorem values_map_isrc (m : TrackMap) (h : ∀ e ∈ m, e.1 = e.2.isrc) :
    (mapValues m).map Track.isrc = mapKeys m := by
  unfold mapValues mapKeys
  rw [List.map_map]
  exact List.map_congr_left fun e he => (h e he).symm

/-- A list of tracks that are all kept against themselves as pool and carry
pairwise distinct identifiers passes through the filter unchanged. -/
theorem removeAlternateVersions_of_all_kept (l : List Track)
    (hkeep : ∀ t ∈ l, keepsTrack l t = true) (hnd : (l.map Track.isrc).Nodup) :
    removeAlternateVersions l = l := by
  unfold removeAlternateVersions
  rw [av_fold_pass l l [] hkeep hnd (by simp [mapKeys])]
  simp only [List.nil_append, mapValues, List.map_map]
  show List.map (fun t : Track => t) l = l
  simp

/-- The output of the filter contains a key exactly once when some kept input
track carries it, and zero times otherwise. -/
theorem av_count_key (tracks : List Track) (k : Option String) :
    (removeAlternateVersions tracks).countP (fun t => t.isrc == k) =
      if tracks.any (fun t => keepsTrack tracks t && t.isrc == k) then 1 else 0 := by
  obtain ⟨h1, h2, _, h4⟩ := av_fold_inv tracks tracks [] (by simp [mapKeys]) (by simp)
  unfold removeAlternateVersions
  rw [countP_values_key k _ h2, countP_nodup_key k _ h1]
  refine if_congr ?_ rfl rfl
  rw [h4 k]
  simp [mapKeys, List.any_eq_true, Bool.and_eq_true]

/-- Every output record of the filter is a kept input record. -/
theorem av_output_mem (tracks : List Track) :
    ∀ u ∈ removeAlternateVersions tracks, u ∈ tracks ∧ keepsTrack tracks u = true := by
  obtain ⟨_, _, h3, _⟩ := av_fold_inv tracks tracks [] (by simp [mapKeys]) (by simp)
  intro u hu
  unfold removeAlternateVersions at hu
  obtain ⟨e, he, hee⟩ := List.mem_map.mp hu
  rcases h3 e he with h | ⟨hmem2, hk⟩
  · simp at h
  · exact ⟨hee ▸ hmem2, hee ▸ hk⟩

/-- A page loop started at offset 49 * j terminates at the first empty page and
collects all earlier pages in order, given enough fuel. -/
theorem fetchLoop_ok (page : Nat → List Album) :
    ∀ (N j fuel : Nat), page (49 * (j + N)) = [] → (∀ i, i < N → page (49 * (j + i)) ≠ []) →
      N < fuel → fetchLoopFuel page fuel (49 * j) = some (collectPages page j N) := by
  intro N
  induction N with
  | zero =>
    intro j fuel h0 _ hf
    obtain ⟨f, rfl⟩ : ∃ f, fuel = f + 1 := ⟨fuel - 1, by omega⟩
    have hj : page (49 * j) = [] := by simpa using h0
    simp [fetchLoopFuel, hj, collectPages]
  | succ N ih =>
    intro j fuel h0 hne hf
    obtain ⟨f, rfl⟩ : ∃ f, fuel = f + 1 := ⟨fuel - 1, by omega⟩
    have hj : page (49 * j) ≠ [] := by
      have h00 := hne 0 (by omega)
      simpa using h00
    have hrec : fetchLoopFuel page f (49 * j + 49) = some (collectPages page (j + 1) N) := by
      have h0' : page (49 * ((j + 1) + N)) = [] := by
        have he : (j + 1) + N = j + (N + 1) := by omega
        rw [he]
        exact h0
      have hne' : ∀ i, i < N → page (49 * ((j + 1) + i)) ≠ [] := by
        intro i hi
        have he : (j + 1) + i = j + (i + 1) := by omega
        rw [he]
        exact hne (i + 1) (by omega)
      have hr := ih (j + 1) f h0' hne' (by omega)
      have ha : 49 * (j + 1) = 49 * j + 49 := by ring
      rwa [ha] at hr
    simp [fetchLoopFuel, hj, hrec, collectPages]

/-- The empty list yields no chunks, whatever the fuel. -/
theorem chunksGo_nil (fuel : Nat) : chunksGo fuel [] = [] := by
  cases fuel <;> rfl

/-- One unfolding of the chunking loop. -/
theorem chunksGo_succ (fuel : Nat) (l : List String) :
    chunksGo (fuel + 1) l = if l = [] then [] else l.take 100 :: chunksGo fuel (l.drop 100) := by
  cases l with
  | nil => rfl
  | cons a t => simp [chunksGo]

/-- A resolution step on a present key replaces exactly when the priority
policy says so. -/
theorem dedupStep_of_get (m : TrackMap) (t p : Track) (hh : mapHas m t.isrc = true)
    (hg : mapGet m t.isrc = some p) :
    dedupStep m t =
      if dedupReplaces t p = true then mapDelete m t.isrc ++ [(t.isrc, t)] else m := by
  have hc : ¬(mapHas m t.isrc = false) := by rw [hh]; simp
  show (if mapHas m t.isrc = false then mapSet m t.isrc t
    else match mapGet m t.isrc with
      | none => m
      | some previousTrack =>
        if dedupReplaces t previousTrack then mapSet (mapDelete m t.isrc) t.isrc t
        else m) = _
  rw [if_neg hc, hg]
  show (if dedupReplaces t p = true then mapSet (mapDelete m t.isrc) t.isrc t else m) = _
  by_cases hr : dedupReplaces t p = true
  · rw [if_pos hr, if_pos hr]
    exact mapSet_of_not_has _ t.isrc t (mapHas_delete_self t.isrc m)
  · rw [if_neg hr, if_neg hr]

/-- C1 counterexample: two distinct records both lacking the recording
identifier do not survive as two singleton groups; they share the absent key
and the second replaces the first. -/
theorem dedup_merges_missing_isrc_cex :
    tNoIsrcA.isrc = none ∧ tNoIsrcB.isrc = none ∧ tNoIsrcA ≠ tNoIsrcB ∧
      removeDuplicateTracks [tNoIsrcA, tNoIsrcB] = [tNoIsrcB] ∧
      tNoIsrcA ∉ removeDuplicateTracks [tNoIsrcA, tNoIsrcB] := by decide

/-- C1 amended: records lacking the identifier all share one group keyed by the
absent value, so the resolver's output holds exactly one identifier-less record
when the input has any, and none otherwise. -/
theorem dedup_missing_isrc_single_group (tracks : List Track) :
    (removeDuplicateTracks tracks).countP (fun t => t.isrc == (none : Option String)) =
      if tracks.any (fun t => t.isrc == (none : Option String)) then 1 else 0 :=
  dedup_count_key tracks none

/-- C2: the duplicate resolver emits at most one record per distinct recording
identifier, and exactly one whenever some input record carries that
identifier. -/
theorem dedup_one_per_identifier (tracks : List Track) (i : String) :
    (removeDuplicateTracks tracks).countP (fun t => t.isrc == some i) =
      if tracks.any (fun t => t.isrc == some i) then 1 else 0 :=
  dedup_count_key tracks (some i)

/-- C3 counterexample: an incoming non-external compilation record does not
replace an external album selection with the same identifier. -/
theorem dedup_nonexternal_comp_cex :
    tExtAlbum.external = true ∧ tIntComp.external = false ∧
      tExtAlbum.album_type = "album" ∧ tIntComp.album_type = "compilation" ∧
      tExtAlbum.isrc = tIntComp.isrc ∧
      removeDuplicateTracks [tExtAlbum, tIntComp] = [tExtAlbum] ∧
      removeDuplicateTracks [tExtAlbum, tIntComp] ≠ [tIntComp] := by decide

/-- C3 amended: against an external selection of category single, album or
compilation, an incoming non-external record replaces it when the incoming
category is single or album; an incoming compilation replaces only when the
existing selection is also a compilation. -/
theorem dedup_nonexternal_vs_external (p q : Track) (i : String)
    (hpi : p.isrc = some i) (hqi : q.isrc = some i)
    (hpe : p.external = true) (hqe : q.external = false)
    (hpc : p.album_type = "single" ∨ p.album_type = "album" ∨
      p.album_type = "compilation") :
    removeDuplicateTracks [p, q] =
      if q.album_type = "single" ∨ q.album_type = "album" ∨
          (q.album_type = "compilation" ∧ p.album_type = "compilation") then [q]
      else [p] := by
  have hstep1 : dedupStep [] p = [(p.isrc, p)] := rfl
  have hhas : mapHas [(p.isrc, p)] q.isrc = true := by simp [mapHas, hpi, hqi]
  have hget : mapGet [(p.isrc, p)] q.isrc = some p := by simp [mapGet, hpi, hqi]
  have hpcb : (p.album_type == "single" || p.album_type == "album" ||
      p.album_type == "compilation") = true := by
    rcases hpc with h | h | h <;> simp [h]
  have hrep : dedupReplaces q p = (q.album_type == "single" || q.album_type == "album" ||
      (q.album_type == "compilation" && p.album_type == "compilation")) := by
    simp [dedupReplaces, hpe, hqe, hpcb]
  unfold removeDuplicateTracks
  simp only [List.foldl_cons, List.foldl_nil, hstep1]
  rw [dedupStep_of_get [(p.isrc, p)] q p hhas hget, hrep]
  by_cases hq : q.album_type = "single" ∨ q.album_type = "album" ∨
      (q.album_type = "compilation" ∧ p.album_type = "compilation")
  · have hb : (q.album_type == "single" || q.album_type == "album" ||
        (q.album_type == "compilation" && p.album_type == "compilation")) = true := by
      rcases hq with h | h | ⟨h1, h2⟩
      · simp [h]
      · simp [h]
      · simp [h1, h2]
    rw [if_pos hb, if_pos hq]
    have hdel : mapDelete [(p.isrc, p)] q.isrc = [] := by simp [mapDelete, hpi, hqi]
    rw [hdel, List.nil_append]
    rfl
  · have hb : (q.album_type == "single" || q.album_type == "album" ||
        (q.album_type == "compilation" && p.album_type == "compilation")) = false := by
      push_neg at hq
      obtain ⟨h1, h2, h3⟩ := hq
      by_cases hc : q.album_type = "compilation"
      · simp [h1, h2, hc, h3 hc]
      · simp [h1, h2, hc]
    rw [if_neg (by rw [hb]; simp), if_neg hq]
    rfl

/-- Witness for the amended C3 theorem at a concrete external album selection
and incoming non-external single. -/
theorem dedup_nonexternal_vs_external_witness :
    removeDuplicateTracks [tExtAlbum, tIntSingle] =
      if tIntSingle.album_type = "single" ∨ tIntSingle.album_type = "album" ∨
          (tIntSingle.album_type = "compilation" ∧ tExtAlbum.album_type = "compilation")
        then [tIntSingle] else [tExtAlbum] :=
  dedup_nonexternal_vs_external tExtAlbum tIntSingle "x" rfl rfl rfl rfl
    (Or.inr (Or.inl rfl))

/-- C4 counterexample: replacing the selected record of a group moves the group
to the end of the output, so group order is not first-appearance order. -/
theorem dedup_group_moved_cex :
    removeDuplicateTracks [tA1, tB1, tA2] = [tB1, tA2] ∧
      removeDuplicateTracks [tA1, tB1, tA2] ≠ [tA2, tB1] := by decide

/-- C4 amended: the resolver's output is a subsequence of its input — surviving
records appear in the relative order they had in the input (each group at the
position of its last replacement), so the fetch-time ascending-release-date
order is preserved among survivors, though a replaced group does not keep its
first-appearance position. -/
theorem dedup_output_sublist_of_input (tracks : List Track) :
    (removeDuplicateTracks tracks).Sublist tracks := by
  have h := dedup_fold_sublist tracks [] [] (by simp [mapValues])
  simpa [removeDuplicateTracks] using h

/-- C5: the alternate-version filter drops a track exactly when its title has a
hyphen or opening parenthesis, the lowercased suffix after the earliest such
delimiter contains a keyword and no exception substring, and some track of the
input matches the base part case-insensitively; dropped tracks never appear in
the output. -/
theorem av_drop_characterisation (tracks : List Track) (t : Track) :
    (keepsTrack tracks t = false ↔
      ((t.title.contains '-' = true ∨ t.title.contains '(' = true) ∧
        (∃ kw ∈ keywords, containsCl kw (suffixOf t) = true) ∧
        ¬(∃ ex ∈ exceptions, containsCl ex (suffixOf t) = true) ∧
        ∃ u ∈ tracks, lowerCl u.title = baseOf t)) ∧
    (keepsTrack tracks t = false → t ∉ removeAlternateVersions tracks) := by
  refine ⟨keep_false_char tracks t, ?_⟩
  intro hf hmem
  have hk := (av_output_mem tracks t hmem).2
  rw [hf] at hk
  exact Bool.false_ne_true hk

/-- Witness for C5 at Example 3: Song (Acoustic) with sibling Song is dropped
and absent from the filter output. -/
theorem av_drop_characterisation_witness :
    keepsTrack [songAcoustic, songPlain] songAcoustic = false ∧
      songAcoustic ∉ removeAlternateVersions [songAcoustic, songPlain] :=
  ⟨by decide, (av_drop_characterisation [songAcoustic, songPlain] songAcoustic).2 (by decide)⟩

/-- C6 counterexample: two kept tracks both lacking the identifier share the
absent key, and the later one overwrites the earlier in the filter output. -/
theorem av_missing_isrc_overwrite_cex :
    tNoIsrcA.isrc = none ∧ tNoIsrcB.isrc = none ∧ tNoIsrcA ≠ tNoIsrcB ∧
      keepsTrack [tNoIsrcA, tNoIsrcB] tNoIsrcA = true ∧
      keepsTrack [tNoIsrcA, tNoIsrcB] tNoIsrcB = true ∧
      removeAlternateVersions [tNoIsrcA, tNoIsrcB] = [tNoIsrcB] := by decide

/-- C6 amended: the filter keys its output by the identifier with no fallback,
so all kept identifier-less tracks collapse onto the absent key: the output
holds exactly one identifier-less record when some kept input track lacks the
identifier, and none otherwise. -/
theorem av_missing_isrc_at_most_one (tracks : List Track) :
    (removeAlternateVersions tracks).countP (fun t => t.isrc == (none : Option String)) =
      if tracks.any (fun t => keepsTrack tracks t && t.isrc == (none : Option String))
        then 1 else 0 :=
  av_count_key tracks none

/-- C7: the alternate-version filter is idempotent — running it on its own
output returns that output unchanged. -/
theorem removeAlternateVersions_idempotent (tracks : List Track) :
    removeAlternateVersions (removeAlternateVersions tracks) =
      removeAlternateVersions tracks := by
  obtain ⟨h1, h2, _, _⟩ := av_fold_inv tracks tracks [] (by simp [mapKeys]) (by simp)
  have hkeepO : ∀ u ∈ removeAlternateVersions tracks,
      keepsTrack (removeAlternateVersions tracks) u = true := fun u hu =>
    keepsTrack_mono tracks _ (fun v hv => (av_output_mem tracks v hv).1) u
      (av_output_mem tracks u hu).2
  have hndO : ((removeAlternateVersions tracks).map Track.isrc).Nodup := by
    unfold removeAlternateVersions
    rw [values_map_isrc _ h2]
    exact h1
  exact removeAlternateVersions_of_all_kept (removeAlternateVersions tracks) hkeepO hndO

/-- C8: for every release category the paginated fetcher starts at offset 0,
advances by the fixed page size 49 after each non-empty page, appends all
returned releases, stops at the first empty page, and, when every category
eventually yields an empty page, fetchAllAlbums terminates with the
concatenation of the four categories' collected pages. -/
theorem fetchAllAlbums_terminates (api : String → Nat → List Album)
    (Na Ns Nc Ng : Nat)
    (ha : api "album" (49 * Na) = []) (ha' : ∀ i, i < Na → api "album" (49 * i) ≠ [])
    (hs : api "single" (49 * Ns) = []) (hs' : ∀ i, i < Ns → api "single" (49 * i) ≠ [])
    (hc : api "compilation" (49 * Nc) = [])
    (hc' : ∀ i, i < Nc → api "compilation" (49 * i) ≠ [])
    (hg : api "appears_on" (49 * Ng) = [])
    (hg' : ∀ i, i < Ng → api "appears_on" (49 * i) ≠ []) :
    ∃ fuel, fetchAllAlbums api fuel = some
      (collectPages (api "album") 0 Na ++ collectPages (api "single") 0 Ns ++
        collectPages (api "compilation") 0 Nc ++ collectPages (api "appears_on") 0 Ng) := by
  refine ⟨Na + Ns + Nc + Ng + 1, ?_⟩
  have la := fetchLoop_ok (api "album") Na 0 (Na + Ns + Nc + Ng + 1)
    (by simpa using ha) (fun i hi => by simpa using ha' i hi) (by omega)
  have ls := fetchLoop_ok (api "single") Ns 0 (Na + Ns + Nc + Ng + 1)
    (by simpa using hs) (fun i hi => by simpa using hs' i hi) (by omega)
  have lc := fetchLoop_ok (api "compilation") Nc 0 (Na + Ns + Nc + Ng + 1)
    (by simpa using hc) (fun i hi => by simpa using hc' i hi) (by omega)
  have lg := fetchLoop_ok (api "appears_on") Ng 0 (Na + Ns + Nc + Ng + 1)
    (by simpa using hg) (fun i hi => by simpa using hg' i hi) (by omega)
  rw [show (49 * 0 : Nat) = 0 from rfl] at la ls lc lg
  unfold fetchAllAlbums
  rw [la, ls, lc, lg]

/-- Witness for C8 at an upstream returning one album page and otherwise empty
pages. -/
theorem fetchAllAlbums_terminates_witness :
    ∃ fuel, fetchAllAlbums apiW fuel = some
      (collectPages (apiW "album") 0 1 ++ collectPages (apiW "single") 0 0 ++
        collectPages (apiW "compilation") 0 0 ++ collectPages (apiW "appears_on") 0 0) :=
  fetchAllAlbums_terminates apiW 1 0 0 0
    (by decide)
    (fun i hi => by
      have hi0 : i = 0 := by omega
      rw [hi0]
      decide)
    (by decide) (fun i hi => absurd hi (Nat.not_lt_zero i))
    (by decide) (fun i hi => absurd hi (Nat.not_lt_zero i))
    (by decide) (fun i hi => absurd hi (Nat.not_lt_zero i))

/-- C9: the chunking loop of playlist insertion cuts 250 track URIs into
exactly the consecutive chunks of sizes 100, 100 and 50, whose concatenation is
the original list. -/
theorem chunk_insertion_250 (uris : List String) (h : uris.length = 250) :
    (chunkTrackUris uris).map List.length = [100, 100, 50] ∧
      (chunkTrackUris uris).length = 3 ∧ (chunkTrackUris uris).flatten = uris := by
  have h1 : uris ≠ [] := by
    intro hnil
    rw [hnil] at h
    simp at h
  have hd1 : (uris.drop 100).length = 150 := by rw [List.length_drop, h]
  have hd2 : ((uris.drop 100).drop 100).length = 50 := by
    rw [List.length_drop, hd1]
  have h2 : uris.drop 100 ≠ [] := by
    intro hnil
    rw [hnil] at hd1
    simp at hd1
  have h3 : (uris.drop 100).drop 100 ≠ [] := by
    intro hnil
    rw [hnil] at hd2
    simp at hd2
  have h4 : ((uris.drop 100).drop 100).drop 100 = [] := by
    apply List.drop_eq_nil_of_le
    rw [hd2]
    omega
  have e250 : (250 : Nat) = 249 + 1 := by norm_num
  have e249 : (249 : Nat) = 248 + 1 := by norm_num
  have e248 : (248 : Nat) = 247 + 1 := by norm_num
  have hch : chunkTrackUris uris =
      [uris.take 100, (uris.drop 100).take 100, ((uris.drop 100).drop 100).take 100] := by
    unfold chunkTrackUris
    rw [h, e250, chunksGo_succ, if_neg h1, e249, chunksGo_succ, if_neg h2, e248,
      chunksGo_succ, if_neg h3, h4, chunksGo_nil]
  refine ⟨?_, ?_, ?_⟩
  · rw [hch]
    simp only [List.map_cons, List.map_nil, List.length_take, hd1, hd2, h]
    norm_num
  · rw [hch]
    rfl
  · rw [hch]
    have ht3 : ((uris.drop 100).drop 100).take 100 = (uris.drop 100).drop 100 :=
      List.take_of_length_le (by rw [hd2]; omega)
    simp only [List.flatten_cons, List.flatten_nil, List.append_nil, ht3,
      List.take_append_drop]

/-- Witness for C9 on a concrete list of 250 URIs. -/
theorem chunk_insertion_250_witness :
    (chunkTrackUris (List.replicate 250 "u")).map List.length = [100, 100, 50] ∧
      (chunkTrackUris (List.replicate 250 "u")).length = 3 ∧
      (chunkTrackUris (List.replicate 250 "u")).flatten = List.replicate 250 "u" :=
  chunk_insertion_250 (List.replicate 250 "u") (by simp)

/-- C10: both resolver and filter only emit records of their input, unchanged,
and never emit the same record twice. -/
theorem pipeline_outputs_from_input (tracks : List Track) :
    (∀ t ∈ removeDuplicateTracks tracks, t ∈ tracks) ∧
      (removeDuplicateTracks tracks).Nodup ∧
      (∀ t ∈ removeAlternateVersions tracks, t ∈ tracks) ∧
      (removeAlternateVersions tracks).Nodup := by
  obtain ⟨hd1, hd2, _⟩ := dedup_fold_inv tracks [] (by simp [mapKeys]) (by simp)
  obtain ⟨ha1, ha2, _, _⟩ := av_fold_inv tracks tracks [] (by simp [mapKeys]) (by simp)
  refine ⟨?_, ?_, ?_, ?_⟩
  · intro t ht
    have hsub : (removeDuplicateTracks tracks).Sublist tracks := by
      have hh := dedup_fold_sublist tracks [] [] (by simp [mapValues])
      simpa [removeDuplicateTracks] using hh
    exact hsub.subset ht
  · have hm : ((removeDuplicateTracks tracks).map Track.isrc).Nodup := by
      unfold removeDuplicateTracks
      rw [values_map_isrc _ hd2]
      exact hd1
    exact List.Nodup.of_map _ hm
  · exact fun t ht => (av_output_mem tracks t ht).1
  · have hm : ((removeAlternateVersions tracks).map Track.isrc).Nodup := by
      unfold removeAlternateVersions
      rw [values_map_isrc _ ha2]
      exact ha1
    exact List.Nodup.of_map _ hm

/-- Witness for C10 at a concrete singleton input. -/
theorem pipeline_outputs_from_input_witness :
    songPlain ∈ ([songPlain] : List Track) :=
  (pipeline_outputs_from_input [songPlain]).1 songPlain (by decide)

